import Mathlib

/-!
Shallow embedding of `src/lib.rs` of the `fd-writer` crate: a buffered
writer (`FdWriter`) that accumulates bytes in a 4096-byte buffer and
flushes them to a file descriptor via `libc::write`.

Modelling conventions:
* Bytes are `Nat` (values of Rust `u8`); byte sequences are `List Nat`.
* The Rust struct holds `len : u16` and a `MaybeUninit` array of
  `BUFFER_CAPACITY` bytes of which exactly the prefix `[0, len)` is valid;
  we represent that valid prefix as the list `buf`, so the field `len` is
  `buf.length`.  `copy_data` writes only at offsets `[len, len+write_len)`
  and every in-bounds buffer read is below `len`, so this abstraction is
  exact (the `u16` cannot overflow: `len` never exceeds 4096).
* `libc::write` is the external primitive: a call is recorded as the chunk
  of bytes handed to it, so each operation returns, besides the new writer
  state, the list of chunks written during that operation (in order).  Its
  return value is modelled as an arbitrary `ret : Int` parameter, which the
  code discards.
* A Rust panic (out-of-bounds slice index) is modelled as `Option.none`.
* Nat subtraction is truncating, which models `usize::saturating_sub`
  exactly.
-/

namespace FdWriterSpec

def BUFFER_CAPACITY : Nat := 4096

/-- The writer state: the file descriptor and the valid prefix `buf` of the
internal buffer (so the Rust field `len` is `buf.length`). -/
structure FdWriter where
  fd : Int
  buf : List Nat
deriving DecidableEq

/-- Rust `FdWriter::new(fd)`: binds the descriptor and sets `len = 0`. -/
def FdWriter.new (fd : Int) : FdWriter :=
  { fd := fd, buf := [] }

/-- Rust `inner_flush`: passes the whole valid prefix (`as_slice`, i.e.
`buffer[0, len)`) to `libc::write`, discards the returned value `ret`, and
resets `len` to `0`. -/
def inner_flush (ret : Int) (s : FdWriter) : FdWriter × List (List Nat) :=
  let _ := ret
  ({ s with buf := [] }, [s.buf])

/-- Rust `flush`: calls `inner_flush` only when `self.len > 0`. -/
def flush (ret : Int) (s : FdWriter) : FdWriter × List (List Nat) :=
  if 0 < s.buf.length then inner_flush ret s else (s, [])

/-- Rust `copy_data`: copies
`write_len = min(BUFFER_CAPACITY.saturating_sub(len), data.len())` bytes of
`data` into the buffer at offset `len`, advances `len`, and returns the
uncopied suffix `&data[write_len..]`. -/
def copy_data (s : FdWriter) (data : List Nat) : FdWriter × List Nat :=
  let write_len := min (BUFFER_CAPACITY - s.buf.length) data.length
  ({ s with buf := s.buf ++ data.take write_len }, data.drop write_len)

/-- Rust `write_data`'s `loop`: repeatedly `copy_data`, stop when all data
has been copied, otherwise `flush` and continue.  Returns the state after
the loop and the chunks written by the flushes inside the loop.
Termination measure: `data.length` plus a one-point penalty when the buffer
is full (the cycle that copies nothing flushes and makes room, every other
cycle consumes at least one input byte). -/
def write_data_loop (ret : Int) (s : FdWriter) (data : List Nat) :
    FdWriter × List (List Nat) :=
  if h : (copy_data s data).2 = [] then ((copy_data s data).1, [])
  else
    let r := write_data_loop ret (flush ret (copy_data s data).1).1
      (copy_data s data).2
    (r.1, (flush ret (copy_data s data).1).2 ++ r.2)
termination_by data.length + (if BUFFER_CAPACITY ≤ s.buf.length then 1 else 0)
decreasing_by
  have hlen : 0 < (copy_data s data).2.length := List.length_pos.mpr h
  simp only [copy_data, flush, inner_flush, List.length_drop,
    List.length_append, List.length_take, BUFFER_CAPACITY] at hlen ⊢
  split_ifs <;> simp_all <;> omega

/-- Rust `write_data`: runs the copy/flush loop, then checks
`self.as_slice()[self.len as usize - 1] == b'\n'`.  When `len = 0` that
index computation underflows and the slice indexing panics (out of bounds);
the panic is modelled as `none`.  Otherwise, if the last buffered byte is
the newline byte `10`, a final `flush` runs. -/
def write_data (ret : Int) (s : FdWriter) (data : List Nat) :
    Option (FdWriter × List (List Nat)) :=
  let r := write_data_loop ret s data
  if r.1.buf.length = 0 then
    none
  else if r.1.buf.getD (r.1.buf.length - 1) 0 = 10 then
    let f := flush ret r.1
    some (f.1, r.2 ++ f.2)
  else
    some (r.1, r.2)

/-- Rust `Drop::drop` for `FdWriter`: its body is exactly one call to
`self.flush()`. -/
def drop (ret : Int) (s : FdWriter) : FdWriter × List (List Nat) :=
  flush ret s

/-- Fuel-indexed variant of the `write_data` loop, used to express (and to
compute) that the loop finishes within a bounded number of copy/flush
cycles: `none` means the fuel ran out before the loop exited. -/
def write_data_loop_fuel (ret : Int) :
    Nat → FdWriter → List Nat → Option (FdWriter × List (List Nat))
  | 0, _, _ => none
  | fuel + 1, s, data =>
    if (copy_data s data).2 = [] then some ((copy_data s data).1, [])
    else
      match write_data_loop_fuel ret fuel (flush ret (copy_data s data).1).1
          (copy_data s data).2 with
      | none => none
      | some r => some (r.1, (flush ret (copy_data s data).1).2 ++ r.2)

/-- A client-visible operation on the writer: an `append` (Rust
`write_data`) or an explicit `flush`. -/
inductive Op where
  | append : List Nat → Op
  | flush : Op
deriving DecidableEq

/-- The bytes an operation supplies to the writer. -/
def Op.data : Op → List Nat
  | Op.append d => d
  | Op.flush => []

/-- Runs a sequence of operations from state `s`, collecting every chunk
handed to `libc::write`, in order; `none` when some `write_data` call
panics. -/
def runOps (ret : Int) (s : FdWriter) : List Op → Option (FdWriter × List (List Nat))
  | [] => some (s, [])
  | Op.append d :: ops =>
    match write_data ret s d with
    | none => none
    | some r =>
      match runOps ret r.1 ops with
      | none => none
      | some t => some (t.1, r.2 ++ t.2)
  | Op.flush :: ops =>
    match runOps ret (flush ret s).1 ops with
    | none => none
    | some t => some (t.1, (flush ret s).2 ++ t.2)

/-! ## Basic lemmas about the single steps -/

/-- The copy/flush loop measure decreases at each recursive call of
`write_data_loop` (strict progress of the chunking loop). -/
theorem write_data_measure (ret : Int) (s : FdWriter) (data : List Nat)
    (h : ¬(copy_data s data).2 = []) :
    (copy_data s data).2.length +
        (if BUFFER_CAPACITY ≤ ((flush ret (copy_data s data).1).1).buf.length
          then 1 else 0) <
      data.length + (if BUFFER_CAPACITY ≤ s.buf.length then 1 else 0) := by
  have hlen : 0 < (copy_data s data).2.length := List.length_pos.mpr h
  simp only [copy_data, flush, inner_flush, List.length_drop,
    List.length_append, List.length_take, BUFFER_CAPACITY] at hlen ⊢
  split_ifs <;> simp_all <;> omega

/-- `copy_data` conserves bytes: copied prefix plus returned suffix is the
old buffer followed by the input. -/
theorem copy_data_conserve (s : FdWriter) (d : List Nat) :
    (copy_data s d).1.buf ++ (copy_data s d).2 = s.buf ++ d := by
  simp [copy_data, List.append_assoc]

/-- `copy_data` keeps the length invariant `len ≤ BUFFER_CAPACITY`. -/
theorem copy_data_len_le (s : FdWriter) (d : List Nat)
    (h : s.buf.length ≤ BUFFER_CAPACITY) :
    (copy_data s d).1.buf.length ≤ BUFFER_CAPACITY := by
  simp only [copy_data, List.length_append, List.length_take]
  omega

/-- `flush` conserves bytes: the chunks it writes followed by the remaining
buffer recompose the old buffer. -/
theorem flush_conserve (ret : Int) (s : FdWriter) :
    ((flush ret s).2).flatten ++ (flush ret s).1.buf = s.buf := by
  by_cases h : 0 < s.buf.length <;> simp [flush, inner_flush, h]

/-- After `flush` the buffer is always empty. -/
theorem flush_buf (ret : Int) (s : FdWriter) :
    (flush ret s).1.buf = [] := by
  by_cases h : 0 < s.buf.length <;>
    simp_all [flush, inner_flush, List.length_pos, List.eq_nil_iff_forall_not_mem]

/-- `flush` never grows the buffer. -/
theorem flush_len_le (ret : Int) (s : FdWriter) :
    (flush ret s).1.buf.length ≤ s.buf.length := by
  by_cases h : 0 < s.buf.length <;> simp [flush, inner_flush, h]

/-- Every chunk `flush` writes is exactly the old buffer content. -/
theorem flush_chunks (ret : Int) (s : FdWriter) :
    ∀ w ∈ (flush ret s).2, w = s.buf := by
  by_cases h : 0 < s.buf.length <;> simp [flush, inner_flush, h]

/-- `flush` does not depend on the value returned by `libc::write`. -/
theorem flush_ret_indep (ret ret2 : Int) (s : FdWriter) :
    flush ret s = flush ret2 s := rfl

/-! ## Lemmas about the copy/flush loop -/

/-- Byte conservation through the loop of `write_data`: the chunks written,
flattened, followed by the final buffer equal the initial buffer followed
by the input data (no reordering, duplication or loss). -/
theorem loop_conserve (ret : Int) (s : FdWriter) (data : List Nat) :
    ((write_data_loop ret s data).2).flatten ++ (write_data_loop ret s data).1.buf
      = s.buf ++ data := by
  induction s, data using write_data_loop.induct ret with
  | case1 s data h =>
    rw [write_data_loop, dif_pos h]
    have hc := copy_data_conserve s data
    rw [h] at hc
    simpa using hc
  | case2 s data h ih =>
    rw [write_data_loop, dif_neg h]
    simp only [List.flatten_append, List.append_assoc]
    rw [ih]
    have h2 := flush_conserve ret (copy_data s data).1
    calc ((flush ret (copy_data s data).1).2).flatten ++
          ((flush ret (copy_data s data).1).1.buf ++ (copy_data s data).2)
        = (((flush ret (copy_data s data).1).2).flatten ++
          (flush ret (copy_data s data).1).1.buf) ++ (copy_data s data).2 := by
          rw [List.append_assoc]
      _ = (copy_data s data).1.buf ++ (copy_data s data).2 := by rw [h2]
      _ = s.buf ++ data := copy_data_conserve s data

/-- The loop keeps the length invariant `len ≤ BUFFER_CAPACITY`. -/
theorem loop_len_le (ret : Int) (s : FdWriter) (data : List Nat) :
    s.buf.length ≤ BUFFER_CAPACITY →
    (write_data_loop ret s data).1.buf.length ≤ BUFFER_CAPACITY := by
  induction s, data using write_data_loop.induct ret with
  | case1 s data h =>
    intro hs
    rw [write_data_loop, dif_pos h]
    exact copy_data_len_le s data hs
  | case2 s data h ih =>
    intro _
    rw [write_data_loop, dif_neg h]
    have hf : (flush ret (copy_data s data).1).1.buf = [] :=
      flush_buf ret (copy_data s data).1
    exact ih (by simp [hf, BUFFER_CAPACITY])

/-- Every chunk written by the loop carries at most `BUFFER_CAPACITY`
bytes. -/
theorem loop_chunks_le (ret : Int) (s : FdWriter) (data : List Nat) :
    s.buf.length ≤ BUFFER_CAPACITY →
    ∀ w ∈ (write_data_loop ret s data).2, w.length ≤ BUFFER_CAPACITY := by
  induction s, data using write_data_loop.induct ret with
  | case1 s data h =>
    intro _ w hw
    rw [write_data_loop, dif_pos h] at hw
    simp at hw
  | case2 s data h ih =>
    intro hs w hw
    rw [write_data_loop, dif_neg h] at hw
    simp only [List.mem_append] at hw
    rcases hw with hw | hw
    · have hwc := flush_chunks ret (copy_data s data).1 w hw
      subst hwc
      exact copy_data_len_le s data hs
    · have hf : (flush ret (copy_data s data).1).1.buf = [] :=
        flush_buf ret (copy_data s data).1
      exact ih (by simp [hf, BUFFER_CAPACITY]) w hw

/-- For non-empty input the loop exits with a non-empty buffer (the final
copy consumed at least one byte). -/
theorem loop_buf_ne_nil (ret : Int) (s : FdWriter) (data : List Nat) :
    data ≠ [] → (write_data_loop ret s data).1.buf ≠ [] := by
  induction s, data using write_data_loop.induct ret with
  | case1 s data h =>
    intro hd
    rw [write_data_loop, dif_pos h]
    have hc := copy_data_conserve s data
    rw [h, List.append_nil] at hc
    simp [hc, hd]
  | case2 s data h ih =>
    intro _
    rw [write_data_loop, dif_neg h]
    exact ih h

/-- For non-empty input, the last buffered byte after the loop is the last
byte of the input. -/
theorem loop_last (ret : Int) (s : FdWriter) (data : List Nat)
    (hd : data ≠ []) :
    (write_data_loop ret s data).1.buf.getLast? = data.getLast? := by
  have hne := loop_buf_ne_nil ret s data hd
  have hc := loop_conserve ret s data
  calc (write_data_loop ret s data).1.buf.getLast?
      = (((write_data_loop ret s data).2).flatten ++
          (write_data_loop ret s data).1.buf).getLast? :=
        (List.getLast?_append_of_ne_nil _ hne).symm
    _ = (s.buf ++ data).getLast? := by rw [hc]
    _ = data.getLast? := List.getLast?_append_of_ne_nil _ hd

/-- The loop on empty input exits immediately, unchanged, writing
nothing. -/
theorem write_data_loop_nil (ret : Int) (s : FdWriter) :
    write_data_loop ret s [] = (s, []) := by
  rw [write_data_loop, dif_pos (by simp [copy_data])]
  simp [copy_data]

/-- The loop does not depend on the values returned by `libc::write`. -/
theorem loop_ret_indep (ret ret2 : Int) (s : FdWriter) (data : List Nat) :
    write_data_loop ret s data = write_data_loop ret2 s data := by
  induction s, data using write_data_loop.induct ret with
  | case1 s data h =>
    conv_lhs => rw [write_data_loop]
    conv_rhs => rw [write_data_loop]
    rw [dif_pos h, dif_pos h]
  | case2 s data h ih =>
    conv_lhs => rw [write_data_loop]
    conv_rhs => rw [write_data_loop]
    rw [dif_neg h, dif_neg h]
    rw [← flush_ret_indep ret ret2, ih]

/-- With fuel strictly above the loop measure, the fuel-indexed loop agrees
with the loop. -/
theorem write_data_loop_fuel_sound (ret : Int) :
    ∀ (fuel : Nat) (s : FdWriter) (data : List Nat),
      data.length + (if BUFFER_CAPACITY ≤ s.buf.length then 1 else 0) < fuel →
      write_data_loop_fuel ret fuel s data = some (write_data_loop ret s data) := by
  intro fuel
  induction fuel with
  | zero => intro s data h; omega
  | succ n ih =>
    intro s data h
    rw [write_data_loop]
    by_cases hc : (copy_data s data).2 = []
    · simp [write_data_loop_fuel, hc]
    · have hm := write_data_measure ret s data hc
      have hrec := ih (flush ret (copy_data s data).1).1 (copy_data s data).2
        (by omega)
      simp [write_data_loop_fuel, hc, hrec]

/-- Evaluation helper: a fuel computation with enough fuel determines the
loop value. -/
theorem write_data_loop_eval (ret : Int) (s : FdWriter) (data : List Nat)
    (r : FdWriter × List (List Nat))
    (h : write_data_loop_fuel ret (data.length + 2) s data = some r) :
    write_data_loop ret s data = r := by
  have hs := write_data_loop_fuel_sound ret (data.length + 2) s data
    (by split_ifs <;> omega)
  rw [h] at hs
  exact (Option.some.inj hs).symm

/-- Relates the Rust check `as_slice()[len - 1] == b'\n'` to the last
element of a non-empty buffer. -/
theorem last_check (l : List Nat) (h : l ≠ []) :
    (l.getD (l.length - 1) 0 = 10) ↔ l.getLast? = some 10 := by
  obtain ⟨a, ha⟩ := Option.isSome_iff_exists.mp (List.getLast?_isSome.mpr h)
  rw [List.getD_eq_getElem?_getD, ← List.getLast?_eq_getElem?, ha]
  simp

/-! ## Lemmas about `write_data` -/

/-- For non-empty input `write_data` never panics: it returns the loop
result, with one extra flush when the input ends in the newline byte. -/
theorem write_data_of_ne_nil (ret : Int) (s : FdWriter) (data : List Nat)
    (hd : data ≠ []) :
    write_data ret s data =
      if data.getLast? = some 10
      then some ({ (write_data_loop ret s data).1 with buf := [] },
                 (write_data_loop ret s data).2 ++ [(write_data_loop ret s data).1.buf])
      else some ((write_data_loop ret s data).1, (write_data_loop ret s data).2) := by
  have hne := loop_buf_ne_nil ret s data hd
  have hlen : ¬ (write_data_loop ret s data).1.buf.length = 0 := by
    simp [List.length_eq_zero, hne]
  have hcheck := last_check (write_data_loop ret s data).1.buf hne
  rw [loop_last ret s data hd] at hcheck
  unfold write_data
  rw [if_neg hlen]
  by_cases h10 : data.getLast? = some 10
  · rw [if_pos (hcheck.mpr h10), if_pos h10]
    have hpos : 0 < (write_data_loop ret s data).1.buf.length := by
      simp [List.length_pos, hne]
    simp [flush, inner_flush, hpos]
  · rw [if_neg (fun hc => h10 (hcheck.mp hc)), if_neg h10]

/-- Byte conservation through `write_data`: when it returns, the chunks it
wrote followed by the final buffer equal the initial buffer followed by the
input. -/
theorem write_data_conserve (ret : Int) (s : FdWriter) (data : List Nat)
    (s1 : FdWriter) (ws : List (List Nat))
    (h : write_data ret s data = some (s1, ws)) :
    ws.flatten ++ s1.buf = s.buf ++ data := by
  by_cases hd : data = []
  · subst hd
    simp only [write_data, write_data_loop_nil] at h
    by_cases h0 : s.buf.length = 0
    · simp [h0] at h
    · rw [if_neg h0] at h
      by_cases h10 : s.buf.getD (s.buf.length - 1) 0 = 10
      · rw [if_pos h10] at h
        simp only [Option.some.injEq, Prod.mk.injEq] at h
        obtain ⟨h1, h2⟩ := h
        subst h1; subst h2
        simpa using flush_conserve ret s
      · rw [if_neg h10] at h
        simp only [Option.some.injEq, Prod.mk.injEq] at h
        obtain ⟨h1, h2⟩ := h
        subst h1; subst h2
        simp
  · rw [write_data_of_ne_nil ret s data hd] at h
    have hc := loop_conserve ret s data
    by_cases h10 : data.getLast? = some 10
    · rw [if_pos h10] at h
      simp only [Option.some.injEq, Prod.mk.injEq] at h
      obtain ⟨h1, h2⟩ := h
      subst h1; subst h2
      simpa [List.append_assoc] using hc
    · rw [if_neg h10] at h
      simp only [Option.some.injEq, Prod.mk.injEq] at h
      obtain ⟨h1, h2⟩ := h
      subst h1; subst h2
      exact hc

/-- `write_data` keeps the length invariant `len ≤ BUFFER_CAPACITY`. -/
theorem write_data_len_le (ret : Int) (s : FdWriter) (data : List Nat)
    (s1 : FdWriter) (ws : List (List Nat))
    (hs : s.buf.length ≤ BUFFER_CAPACITY)
    (h : write_data ret s data = some (s1, ws)) :
    s1.buf.length ≤ BUFFER_CAPACITY := by
  have hloop := loop_len_le ret s data hs
  by_cases hd : data = []
  · subst hd
    simp only [write_data, write_data_loop_nil] at h
    by_cases h0 : s.buf.length = 0
    · simp [h0] at h
    · rw [if_neg h0] at h
      by_cases h10 : s.buf.getD (s.buf.length - 1) 0 = 10
      · rw [if_pos h10] at h
        simp only [Option.some.injEq, Prod.mk.injEq] at h
        obtain ⟨h1, _⟩ := h
        subst h1
        simp [flush_buf]
      · rw [if_neg h10] at h
        simp only [Option.some.injEq, Prod.mk.injEq] at h
        obtain ⟨h1, _⟩ := h
        subst h1
        exact hs
  · rw [write_data_of_ne_nil ret s data hd] at h
    by_cases h10 : data.getLast? = some 10
    · rw [if_pos h10] at h
      simp only [Option.some.injEq, Prod.mk.injEq] at h
      obtain ⟨h1, _⟩ := h
      subst h1
      simp [BUFFER_CAPACITY]
    · rw [if_neg h10] at h
      simp only [Option.some.injEq, Prod.mk.injEq] at h
      obtain ⟨h1, _⟩ := h
      subst h1
      exact hloop

/-- Every chunk `write_data` hands to `libc::write` carries at most
`BUFFER_CAPACITY` bytes. -/
theorem write_data_chunks_le (ret : Int) (s : FdWriter) (data : List Nat)
    (s1 : FdWriter) (ws : List (List Nat))
    (hs : s.buf.length ≤ BUFFER_CAPACITY)
    (h : write_data ret s data = some (s1, ws)) :
    ∀ w ∈ ws, w.length ≤ BUFFER_CAPACITY := by
  have hloopc := loop_chunks_le ret s data hs
  have hloopl := loop_len_le ret s data hs
  by_cases hd : data = []
  · subst hd
    simp only [write_data, write_data_loop_nil] at h
    by_cases h0 : s.buf.length = 0
    · simp [h0] at h
    · rw [if_neg h0] at h
      by_cases h10 : s.buf.getD (s.buf.length - 1) 0 = 10
      · rw [if_pos h10] at h
        simp only [Option.some.injEq, Prod.mk.injEq] at h
        obtain ⟨_, h2⟩ := h
        subst h2
        intro w hw
        simp only [List.nil_append] at hw
        have := flush_chunks ret s w hw
        subst this
        exact hs
      · rw [if_neg h10] at h
        simp only [Option.some.injEq, Prod.mk.injEq] at h
        obtain ⟨_, h2⟩ := h
        subst h2
        intro w hw
        simp at hw
  · rw [write_data_of_ne_nil ret s data hd] at h
    by_cases h10 : data.getLast? = some 10
    · rw [if_pos h10] at h
      simp only [Option.some.injEq, Prod.mk.injEq] at h
      obtain ⟨_, h2⟩ := h
      subst h2
      intro w hw
      rcases List.mem_append.mp hw with hw | hw
      · exact hloopc w hw
      · rw [List.mem_singleton.mp hw]
        exact hloopl
    · rw [if_neg h10] at h
      simp only [Option.some.injEq, Prod.mk.injEq] at h
      obtain ⟨_, h2⟩ := h
      subst h2
      exact hloopc

/-! ## Lemmas about sequences of operations -/

/-- Byte conservation through a sequence of operations: the chunks written,
flattened, followed by the final buffer equal the initial buffer followed
by the concatenation of all appended data. -/
theorem runOps_conserve (ret : Int) :
    ∀ (ops : List Op) (s s1 : FdWriter) (ws : List (List Nat)),
      runOps ret s ops = some (s1, ws) →
      ws.flatten ++ s1.buf = s.buf ++ (ops.map Op.data).flatten := by
  intro ops
  induction ops with
  | nil =>
    intro s s1 ws h
    simp only [runOps, Option.some.injEq, Prod.mk.injEq] at h
    obtain ⟨h1, h2⟩ := h
    subst h1; subst h2
    simp
  | cons o ops ih =>
    intro s s1 ws h
    cases o with
    | append d =>
      simp only [runOps] at h
      cases hw : write_data ret s d with
      | none => simp [hw] at h
      | some r =>
        simp only [hw] at h
        cases ht : runOps ret r.1 ops with
        | none => simp [ht] at h
        | some t =>
          simp only [ht] at h
          simp only [Option.some.injEq, Prod.mk.injEq] at h
          obtain ⟨h1, h2⟩ := h
          subst h1; subst h2
          have hc1 := write_data_conserve ret s d r.1 r.2 (by rw [hw])
          have hc2 := ih r.1 t.1 t.2 ht
          simp only [List.map_cons, List.flatten_cons, List.flatten_append, Op.data]
          calc (r.2.flatten ++ t.2.flatten) ++ t.1.buf
              = r.2.flatten ++ (t.2.flatten ++ t.1.buf) := by rw [List.append_assoc]
            _ = r.2.flatten ++ (r.1.buf ++ (ops.map Op.data).flatten) := by rw [hc2]
            _ = (r.2.flatten ++ r.1.buf) ++ (ops.map Op.data).flatten := by
                rw [List.append_assoc]
            _ = (s.buf ++ d) ++ (ops.map Op.data).flatten := by rw [hc1]
            _ = s.buf ++ (d ++ (ops.map Op.data).flatten) := by rw [List.append_assoc]
    | flush =>
      simp only [runOps] at h
      cases ht : runOps ret (flush ret s).1 ops with
      | none => simp [ht] at h
      | some t =>
        simp only [ht] at h
        simp only [Option.some.injEq, Prod.mk.injEq] at h
        obtain ⟨h1, h2⟩ := h
        subst h1; subst h2
        have hc1 := flush_conserve ret s
        have hc2 := ih (flush ret s).1 t.1 t.2 ht
        simp only [List.map_cons, List.flatten_cons, List.flatten_append, Op.data,
          List.nil_append]
        calc ((flush ret s).2.flatten ++ t.2.flatten) ++ t.1.buf
            = (flush ret s).2.flatten ++ (t.2.flatten ++ t.1.buf) := by
              rw [List.append_assoc]
          _ = (flush ret s).2.flatten ++
              ((flush ret s).1.buf ++ (ops.map Op.data).flatten) := by rw [hc2]
          _ = ((flush ret s).2.flatten ++ (flush ret s).1.buf) ++
              (ops.map Op.data).flatten := by rw [List.append_assoc]
          _ = s.buf ++ (ops.map Op.data).flatten := by rw [hc1]

/-- A sequence of operations keeps the length invariant and only ever hands
chunks of at most `BUFFER_CAPACITY` bytes to `libc::write`. -/
theorem runOps_bounds (ret : Int) :
    ∀ (ops : List Op) (s s1 : FdWriter) (ws : List (List Nat)),
      s.buf.length ≤ BUFFER_CAPACITY →
      runOps ret s ops = some (s1, ws) →
      s1.buf.length ≤ BUFFER_CAPACITY ∧ ∀ w ∈ ws, w.length ≤ BUFFER_CAPACITY := by
  intro ops
  induction ops with
  | nil =>
    intro s s1 ws hs h
    simp only [runOps, Option.some.injEq, Prod.mk.injEq] at h
    obtain ⟨h1, h2⟩ := h
    subst h1; subst h2
    exact ⟨hs, by simp⟩
  | cons o ops ih =>
    intro s s1 ws hs h
    cases o with
    | append d =>
      simp only [runOps] at h
      cases hw : write_data ret s d with
      | none => simp [hw] at h
      | some r =>
        simp only [hw] at h
        cases ht : runOps ret r.1 ops with
        | none => simp [ht] at h
        | some t =>
          simp only [ht] at h
          simp only [Option.some.injEq, Prod.mk.injEq] at h
          obtain ⟨h1, h2⟩ := h
          subst h1; subst h2
          have hr := write_data_len_le ret s d r.1 r.2 hs (by rw [hw])
          have hrc := write_data_chunks_le ret s d r.1 r.2 hs (by rw [hw])
          have hrec := ih r.1 t.1 t.2 hr ht
          refine ⟨hrec.1, ?_⟩
          intro w hw2
          rcases List.mem_append.mp hw2 with hw2 | hw2
          · exact hrc w hw2
          · exact hrec.2 w hw2
    | flush =>
      simp only [runOps] at h
      cases ht : runOps ret (flush ret s).1 ops with
      | none => simp [ht] at h
      | some t =>
        simp only [ht] at h
        simp only [Option.some.injEq, Prod.mk.injEq] at h
        obtain ⟨h1, h2⟩ := h
        subst h1; subst h2
        have hf : (flush ret s).1.buf.length ≤ BUFFER_CAPACITY :=
          le_trans (flush_len_le ret s) hs
        have hrec := ih (flush ret s).1 t.1 t.2 hf ht
        refine ⟨hrec.1, ?_⟩
        intro w hw2
        rcases List.mem_append.mp hw2 with hw2 | hw2
        · have := flush_chunks ret s w hw2
          subst this
          exact hs
        · exact hrec.2 w hw2

/-- Extracting the appended byte sequences from a pure-append operation
list gives back the byte sequences. -/
theorem map_data_append (ds : List (List Nat)) :
    (ds.map Op.append).map Op.data = ds := by
  induction ds with
  | nil => rfl
  | cons d ds ih => simp only [List.map_cons, Op.data, ih]

/-! ## Concrete evaluations used by witnesses -/

/-- Loop evaluation on the input `"h\n"` from a fresh writer. -/
theorem eval_loop_hn :
    write_data_loop 0 (FdWriter.new 0) [104, 10] = (⟨0, [104, 10]⟩, []) :=
  write_data_loop_eval 0 (FdWriter.new 0) [104, 10] (⟨0, [104, 10]⟩, []) (by decide)

/-- `write_data` evaluation on the input `"h\n"` from a fresh writer. -/
theorem eval_wd_hn :
    write_data 0 (FdWriter.new 0) [104, 10] = some (⟨0, []⟩, [[104, 10]]) := by
  simp only [write_data, eval_loop_hn]
  decide

/-- Loop evaluation on the input `"i"` from an empty writer. -/
theorem eval_loop_i :
    write_data_loop 0 (⟨0, []⟩ : FdWriter) [105] = (⟨0, [105]⟩, []) :=
  write_data_loop_eval 0 (⟨0, []⟩ : FdWriter) [105] (⟨0, [105]⟩, []) (by decide)

/-- `write_data` evaluation on the input `"i"` from an empty writer. -/
theorem eval_wd_i :
    write_data 0 (⟨0, []⟩ : FdWriter) [105] = some (⟨0, [105]⟩, []) := by
  simp only [write_data, eval_loop_i]
  decide

/-- Loop evaluation on the input `"h\n"` from a writer holding one byte. -/
theorem eval_loop_5hn :
    write_data_loop 0 (⟨0, [5]⟩ : FdWriter) [104, 10] = (⟨0, [5, 104, 10]⟩, []) :=
  write_data_loop_eval 0 (⟨0, [5]⟩ : FdWriter) [104, 10] (⟨0, [5, 104, 10]⟩, [])
    (by decide)

/-- `write_data` evaluation on the input `"h\n"` from a writer holding one
byte. -/
theorem eval_wd_5hn :
    write_data 0 (⟨0, [5]⟩ : FdWriter) [104, 10] = some (⟨0, []⟩, [[5, 104, 10]]) := by
  simp only [write_data, eval_loop_5hn]
  decide

/-- Evaluation of the two-append run used by the order-preservation
witness. -/
theorem eval_run_appends :
    runOps 0 (FdWriter.new 0) [Op.append [104, 10], Op.append [105]]
      = some (⟨0, [105]⟩, [[104, 10]]) := by
  simp [runOps, eval_wd_hn, eval_wd_i]

/-- Evaluation of the append-then-flush run used by the capacity-bound
witness. -/
theorem eval_run_append_flush :
    runOps 0 (FdWriter.new 0) [Op.append [104, 10], Op.flush]
      = some (⟨0, []⟩, [[104, 10]]) := by
  simp [runOps, eval_wd_hn, flush]

/-! ## The claims -/

/-- Claim C1 (code bug): contrary to the claim, `write_data` on an empty
byte sequence does not skip the trailing-newline check when `length = 0`
after the copy phase.  With an empty buffer it evaluates
`self.as_slice()[self.len as usize - 1]` with `len = 0`: the index
underflows and the slice access panics (out of bounds), modelled here as
`none`. -/
theorem c1_empty_append_panics :
    write_data 0 (FdWriter.new 0) [] = none := by
  simp [write_data, write_data_loop_nil, FdWriter.new]

/-- Claim C2: order preservation.  For any sequence of appends `ds` from a
fresh writer, the chunks handed to `libc::write`, flattened, followed by
the still-buffered bytes equal `concat ds`; after one final flush the bytes
passed to the write primitive across all flush invocations are exactly
`concat ds` — nothing reordered, duplicated or lost. -/
theorem c2_order_preservation (ret ret2 fd : Int) (ds : List (List Nat))
    (s1 : FdWriter) (ws : List (List Nat))
    (h : runOps ret (FdWriter.new fd) (ds.map Op.append) = some (s1, ws)) :
    ws.flatten ++ s1.buf = ds.flatten ∧
    (ws ++ (flush ret2 s1).2).flatten = ds.flatten := by
  have hc := runOps_conserve ret (ds.map Op.append) (FdWriter.new fd) s1 ws h
  have hmap := map_data_append ds
  rw [hmap] at hc
  simp only [FdWriter.new, List.nil_append] at hc
  refine ⟨hc, ?_⟩
  have hf := flush_conserve ret2 s1
  rw [flush_buf ret2 s1, List.append_nil] at hf
  rw [List.flatten_append, hf]
  exact hc

/-- Witness for C2 at the concrete run `append "h\n"; append "i"`. -/
theorem c2_order_preservation_witness :
    ([[104, 10]] : List (List Nat)).flatten ++ (⟨0, [105]⟩ : FdWriter).buf
        = ([[104, 10], [105]] : List (List Nat)).flatten ∧
      (([[104, 10]] : List (List Nat)) ++ (flush 0 (⟨0, [105]⟩ : FdWriter)).2).flatten
        = ([[104, 10], [105]] : List (List Nat)).flatten :=
  c2_order_preservation 0 0 0 [[104, 10], [105]] ⟨0, [105]⟩ [[104, 10]]
    eval_run_appends

/-- Claim C3: newline auto-flush.  If the appended sequence ends in the
newline byte `10`, then after `write_data` returns the buffer is empty, the
underlying write primitive was invoked at least once during the call, and
the chunks written during the call are exactly the previously buffered
bytes followed by the appended bytes (the full content, newline
included). -/
theorem c3_newline_autoflush (ret : Int) (s : FdWriter) (data : List Nat)
    (s1 : FdWriter) (ws : List (List Nat))
    (hlast : data.getLast? = some 10)
    (h : write_data ret s data = some (s1, ws)) :
    s1.buf = [] ∧ ws ≠ [] ∧ ws.flatten = s.buf ++ data := by
  have hd : data ≠ [] := by
    intro he
    rw [he] at hlast
    simp at hlast
  rw [write_data_of_ne_nil ret s data hd, if_pos hlast] at h
  simp only [Option.some.injEq, Prod.mk.injEq] at h
  obtain ⟨h1, h2⟩ := h
  subst h1; subst h2
  refine ⟨rfl, by simp, ?_⟩
  have hc := loop_conserve ret s data
  simpa [List.flatten_append] using hc

/-- Witness for C3 at `append "h\n"` on a writer holding the byte `5`. -/
theorem c3_newline_autoflush_witness :
    (⟨0, []⟩ : FdWriter).buf = [] ∧ ([[5, 104, 10]] : List (List Nat)) ≠ [] ∧
      ([[5, 104, 10]] : List (List Nat)).flatten
        = (⟨0, [5]⟩ : FdWriter).buf ++ [104, 10] :=
  c3_newline_autoflush 0 ⟨0, [5]⟩ [104, 10] ⟨0, []⟩ [[5, 104, 10]]
    (by decide) eval_wd_5hn

/-- Claim C4: destruction.  `Drop::drop` is exactly one call to `flush`,
and that call empties the buffer and performs exactly one underlying write
carrying the residual bytes `[0, length)` when `length > 0`, and no write
when `length = 0`. -/
theorem c4_drop_flushes (ret : Int) (s : FdWriter) :
    drop ret s = flush ret s ∧
    drop ret s = ({ s with buf := [] },
      if s.buf.length = 0 then [] else [s.buf]) := by
  refine ⟨rfl, ?_⟩
  rcases Nat.eq_zero_or_pos s.buf.length with h0 | hpos
  · have hnil := List.length_eq_zero.mp h0
    cases s with
    | mk fd buf =>
      simp only at hnil
      subst hnil
      simp [drop, flush, inner_flush]
  · have h0 : ¬ s.buf.length = 0 := by omega
    simp [drop, flush, inner_flush, hpos, h0]

/-- Claim C5: the length invariant `0 ≤ length ≤ CAPACITY` (the lower bound
is inherent to `Nat`): it is established by `new` and preserved by `flush`
and by every successful `write_data`. -/
theorem c5_length_invariant (ret fd : Int) (s s1 : FdWriter) (data : List Nat)
    (ws : List (List Nat)) (hs : s.buf.length ≤ BUFFER_CAPACITY) :
    (FdWriter.new fd).buf.length = 0 ∧
    (flush ret s).1.buf.length ≤ BUFFER_CAPACITY ∧
    (write_data ret s data = some (s1, ws) → s1.buf.length ≤ BUFFER_CAPACITY) := by
  refine ⟨rfl, le_trans (flush_len_le ret s) hs, ?_⟩
  intro h
  exact write_data_len_le ret s data s1 ws hs h

/-- Witness for C5 at `append "h"` on a fresh writer. -/
theorem c5_length_invariant_witness :
    (⟨0, [104]⟩ : FdWriter).buf.length ≤ BUFFER_CAPACITY :=
  (c5_length_invariant 0 1 (FdWriter.new 0) ⟨0, [104]⟩ [104] [] (by decide)).2.2
    (by
      have hl : write_data_loop 0 (FdWriter.new 0) [104] = (⟨0, [104]⟩, []) :=
        write_data_loop_eval 0 (FdWriter.new 0) [104] (⟨0, [104]⟩, []) (by decide)
      simp only [write_data, hl]
      decide)

/-- Claim C6: capacity bound.  Along any successful sequence of append and
flush operations from a state satisfying the length invariant, no single
chunk handed to `libc::write` carries more than `BUFFER_CAPACITY` bytes. -/
theorem c6_capacity_bound (ret : Int) (s s1 : FdWriter) (ops : List Op)
    (ws : List (List Nat)) (hs : s.buf.length ≤ BUFFER_CAPACITY)
    (h : runOps ret s ops = some (s1, ws)) :
    ∀ w ∈ ws, w.length ≤ BUFFER_CAPACITY :=
  (runOps_bounds ret ops s s1 ws hs h).2

/-- Witness for C6 at the run `append "h\n"; flush`. -/
theorem c6_capacity_bound_witness :
    ([104, 10] : List Nat).length ≤ BUFFER_CAPACITY :=
  c6_capacity_bound 0 (FdWriter.new 0) ⟨0, []⟩ [Op.append [104, 10], Op.flush]
    [[104, 10]] (by decide) eval_run_append_flush [104, 10] (by simp)

/-- Claim C7: after any flush the length is `0` unconditionally;
`inner_flush` resets the length no matter what value the underlying write
returned (the value is discarded, so every operation is independent of it);
`flush` and `write_data` return no error value (the `none` of `write_data`
is the panic of claim C1, not an error result). -/
theorem c7_flush_resets_unconditionally (ret ret2 : Int) (s : FdWriter)
    (data : List Nat) :
    (inner_flush ret s).1.buf.length = 0 ∧
    inner_flush ret s = inner_flush ret2 s ∧
    (flush ret s).1.buf.length = 0 ∧
    flush ret s = flush ret2 s ∧
    write_data ret s data = write_data ret2 s data := by
  refine ⟨rfl, rfl, ?_, rfl, ?_⟩
  · simp [flush_buf]
  · unfold write_data
    rw [loop_ret_indep ret ret2 s data]
    simp only [flush_ret_indep ret ret2]

/-- Claim C8: `flush` on an empty buffer writes nothing and changes
nothing, and a second flush right after any flush writes nothing and
changes nothing, so two consecutive flushes equal one. -/
theorem c8_flush_idempotent_empty (ret ret2 : Int) (s : FdWriter)
    (h : s.buf.length = 0) :
    flush ret s = (s, []) ∧
    flush ret2 (flush ret s).1 = ((flush ret s).1, []) := by
  constructor
  · simp [flush, h]
  · have hb : (flush ret s).1.buf = [] := flush_buf ret s
    generalize (flush ret s).1 = t at hb ⊢
    simp [flush, hb]

/-- Witness for C8 on a fresh writer. -/
theorem c8_flush_idempotent_empty_witness :
    flush 0 (FdWriter.new 0) = (FdWriter.new 0, []) :=
  (c8_flush_idempotent_empty 0 0 (FdWriter.new 0) (by decide)).1

/-- Claim C9: no-newline retention.  Appending a non-empty sequence that
fits in the remaining room (up to exactly filling the buffer) and does not
end in the newline byte grows the buffer by exactly that sequence and
issues zero underlying writes. -/
theorem c9_no_newline_retention (ret : Int) (s : FdWriter) (data : List Nat)
    (hne : data ≠ [])
    (hfit : s.buf.length + data.length ≤ BUFFER_CAPACITY)
    (hnl : data.getLast? ≠ some 10) :
    write_data ret s data = some ({ s with buf := s.buf ++ data }, []) := by
  have hw : min (BUFFER_CAPACITY - s.buf.length) data.length = data.length := by
    omega
  have hcopy : copy_data s data = ({ s with buf := s.buf ++ data }, []) := by
    simp [copy_data, hw]
  have hloop : write_data_loop ret s data = ({ s with buf := s.buf ++ data }, []) := by
    rw [write_data_loop]
    simp [hcopy]
  rw [write_data_of_ne_nil ret s data hne, if_neg hnl, hloop]

/-- Witness for C9 at `append "h"` on a writer holding one byte. -/
theorem c9_no_newline_retention_witness :
    write_data 0 (⟨0, [1]⟩ : FdWriter) [104] = some (⟨0, [1, 104]⟩, []) :=
  c9_no_newline_retention 0 ⟨0, [1]⟩ [104] (by decide) (by decide) (by decide)

/-- Claim C10: termination of `write_data`.  The copy/flush loop makes
strict progress, so on any input `data` it completes within
`data.length + 2` copy-then-flush cycles: with that much fuel the
fuel-indexed loop already reaches the loop's result. -/
theorem c10_append_terminates (ret : Int) (s : FdWriter) (data : List Nat) :
    write_data_loop_fuel ret (data.length + 2) s data
      = some (write_data_loop ret s data) := by
  apply write_data_loop_fuel_sound
  split_ifs <;> omega

end FdWriterSpec
